import Mathlib

/-
A shallow embedding of the core read-path, durability, shard-map and
change-feed logic of a sharded versioned key-value storage server
(storageserver.actor.cpp and KeyValueStoreShardedRocksDB.actor.cpp),
together with theorems settling the frozen claims about that code.

Versions are modelled as Int (the source uses int64_t Version); keys are
modelled as Nat (the source uses lexicographically ordered byte strings,
of which Nat is an order-faithful abstraction for the properties proved
here).
-/

namespace StorageCore

/-- Error values surfaced by the storage server (flow error codes). -/
inductive SSError
  | transactionTooOld
  | futureVersion
  | processBehind
  | wrongShardServer
  | pleaseReboot
  | assertionFailed
  deriving DecidableEq, Repr

/-- The invalidVersion constant from the source (Version(-1)). -/
def invalidVersion : Int := -1

/-- The latestVersion sentinel. Modelled from the spec: the sentinel is
the distinguished Version constant latestVersion = -2, defined beside
invalidVersion = -1 in the client types header, which is not part of the
sources under verification; the value is corroborated in the sources by
the otherwise-redundant disjunct (value == latestVersion or
value >= version) in the availability check of changeServerKeys. -/
def latestVersion : Int := -2

/-- Outcome of the race inside waitForVersionActor between
version.whenAtLeast(version) and delay(FUTURE_VERSION_DELAY):
either the version arrives first (carrying the value oldestVersion has
at that moment) or the delay fires first. -/
inductive WaitOutcome
  | reached (oldestAtWake : Int)
  | timedOut
  deriving DecidableEq, Repr

/-- waitForVersionActor (storageserver.actor.cpp): when the awaited
version arrives, re-check it against oldestVersion (which may have moved
during the suspension) and throw transaction_too_old if it fell behind;
when the future-version delay elapses first, throw future_version. -/
def waitForVersionActor (version : Int) (w : WaitOutcome) : Except SSError Int :=
  match w with
  | .reached oldestAtWake =>
      if version < oldestAtWake then .error .transactionTooOld else .ok version
  | .timedOut => .error .futureVersion

/-- waitForVersion (storageserver.actor.cpp): map the latestVersion
sentinel to max(1, version); reject versions below oldestVersion or not
positive with transaction_too_old; return immediately when the version is
already visible; fail process_behind when the server is marked behind;
otherwise suspend in waitForVersionActor. The flag behind stands for the
disjunction (data behind or versionBehind) read by the source. -/
def waitForVersion (oldest cur : Int) (behind : Bool) (reqVersion : Int)
    (w : WaitOutcome) : Except SSError Int :=
  let version := if reqVersion = latestVersion then max 1 cur else reqVersion
  if version < oldest ∨ version ≤ 0 then .error .transactionTooOld
  else if version ≤ cur then .ok version
  else if behind then .error .processBehind
  else waitForVersionActor version w

/-! ## Shard map and change counters -/

/-- The part of the shard map observed by checkChangeCounter: the global
shardChangeCounter and, for every key, the changeCounter of the shard
currently containing that key. -/
structure ShardMapView where
  counter : Nat
  ccAt : Nat → Nat

/-- StorageServer::addShard: the new shard receives changeCounter equal
to the pre-incremented global counter, and the shard map now maps every
key of the inserted range to the new shard. -/
def addShard (s : ShardMapView) (lo hi : Nat) : ShardMapView :=
  { counter := s.counter + 1,
    ccAt := fun k => if lo ≤ k ∧ k < hi then s.counter + 1 else s.ccAt k }

/-- A sequence of shard-map mutations (each inserting a shard over the
given range) applied in order. -/
def applyShardChanges (s : ShardMapView) (ops : List (Nat × Nat)) : ShardMapView :=
  ops.foldl (fun t p => addShard t p.1 p.2) s

/-- StorageServer::checkChangeCounter (single-key overload): throw
wrong_shard_server iff the global counter moved and the shard now
containing the key has a changeCounter above the captured one. -/
def checkChangeCounterThrows (captured : Nat) (s : ShardMapView) (key : Nat) : Bool :=
  decide (captured ≠ s.counter) && decide (s.ccAt key > captured)

/-- StorageServer::checkChangeCounter (range overload): throw iff the
global counter moved and some shard intersecting the queried range
[lo, hi) has a changeCounter above the captured one; a shard intersects
the range exactly when it contains one of its keys. -/
def checkChangeCounterRangeThrows (captured : Nat) (s : ShardMapView)
    (lo hi : Nat) : Bool :=
  decide (captured ≠ s.counter) &&
    ((List.range' lo (hi - lo)).any fun k => decide (s.ccAt k > captured))

/-- All shards in the map were created by past addShard calls, so their
changeCounters never exceed the global counter. -/
def ShardMapInv (s : ShardMapView) : Prop :=
  ∀ k, s.ccAt k ≤ s.counter

/-! ## Update loop: proposing desiredOldestVersion -/

/-- The desiredOldestVersion computation at the end of an update-loop
iteration (update, storageserver.actor.cpp): maxVersionsInMemory is
MAX_READ_TRANSACTION_LIFE_VERSIONS plus the widths of the recorded
recovery version skips; the proposal starts from
max(version, minKnownCommittedVersion) - maxVersionsInMemory, is raised
by lastTLogVersion - maxVersionsInMemory on a primary-locality server,
is capped at version - 1, and is floored at both oldestVersion and the
previous desiredOldestVersion. -/
def proposeOldestVersion (maxReadLife : Int) (skips : List Int)
    (version minKnownCommitted lastTLogVersion oldest desiredOldest : Int)
    (isPrimary : Bool) : Int :=
  let maxVersionsInMemory := maxReadLife + skips.sum
  let p0 := max version minKnownCommitted - maxVersionsInMemory
  let p1 := if isPrimary then max p0 (lastTLogVersion - maxVersionsInMemory) else p0
  let p2 := min p1 (version - 1)
  let p3 := max p2 oldest
  max p3 desiredOldest

end StorageCore

open StorageCore

/-- C10: a read request with version v at most 0 that is not the
latestVersion sentinel fails immediately with TransactionTooOld whatever
oldestVersion is, and the latestVersion sentinel is first mapped to
max(1, version) before the window check. -/
theorem C10_nonpositive_version_too_old
    (oldest cur : Int) (behind : Bool) (v : Int) (w : WaitOutcome)
    (hv : v ≤ 0) (hs : v ≠ latestVersion) :
    waitForVersion oldest cur behind v w = .error .transactionTooOld ∧
      waitForVersion oldest cur behind latestVersion w =
        waitForVersion oldest cur behind (max 1 cur) w := by
  constructor
  · unfold waitForVersion
    simp only [hs, if_neg hs]
    have : v < oldest ∨ v ≤ 0 := Or.inr hv
    simp [this]
  · unfold waitForVersion
    by_cases hc : (max 1 cur) = latestVersion
    · simp [hc]
    · simp [hc]

/-- C10 witness: at a concrete state, version 0 is rejected with
TransactionTooOld and the sentinel is remapped. -/
theorem C10_nonpositive_version_too_old_witness :
    waitForVersion (-3) 7 false 0 WaitOutcome.timedOut =
        .error .transactionTooOld ∧
      waitForVersion (-3) 7 false latestVersion WaitOutcome.timedOut =
        waitForVersion (-3) 7 false (max 1 7) WaitOutcome.timedOut :=
  C10_nonpositive_version_too_old (-3) 7 false 0 WaitOutcome.timedOut
    (by decide) (by decide)

/-- C3 counterexample: with oldestVersion = 0, current version = 5 and
requested version v = 0 we have oldestVersion ≤ v ≤ version, yet the
request does not proceed with v: it fails with TransactionTooOld,
because the code also rejects every v ≤ 0. -/
theorem C3_counterexample_zero_version :
    (0 : Int) ≤ 0 ∧ (0 : Int) ≤ 5 ∧
      waitForVersion 0 5 false 0 WaitOutcome.timedOut =
        .error .transactionTooOld := by
  refine ⟨le_refl 0, by norm_num, ?_⟩
  rfl

/-- C3 (amended): for every read request at version v with v ≥ 1 (which
excludes the latestVersion sentinel -2) on a server not marked behind:
if v < oldestVersion the request fails with TransactionTooOld; if
oldestVersion ≤ v ≤ version the request proceeds with version v; if
v > version the request waits, and when the future-version delay elapses
before version reaches v it fails with FutureVersion. -/
theorem C3_version_window
    (oldest cur v : Int) (w : WaitOutcome)
    (h1 : 1 ≤ v) :
    (v < oldest → waitForVersion oldest cur false v w = .error .transactionTooOld) ∧
      (oldest ≤ v → v ≤ cur → waitForVersion oldest cur false v w = .ok v) ∧
      (oldest ≤ v → cur < v → waitForVersion oldest cur false v .timedOut =
        .error .futureVersion) := by
  have hs : v ≠ latestVersion := by
    unfold latestVersion
    omega
  refine ⟨?_, ?_, ?_⟩
  · intro hlt
    unfold waitForVersion
    simp only [if_neg hs]
    simp [Or.inl hlt]
  · intro hge hle
    unfold waitForVersion
    simp only [if_neg hs]
    have hnot : ¬ (v < oldest ∨ v ≤ 0) := by
      push_neg
      exact ⟨hge, by omega⟩
    simp [hnot, hle]
  · intro hge hgt
    unfold waitForVersion
    simp only [if_neg hs]
    have hnot : ¬ (v < oldest ∨ v ≤ 0) := by
      push_neg
      exact ⟨hge, by omega⟩
    have hnle : ¬ v ≤ cur := not_le.mpr hgt
    simp [hnot, hnle, waitForVersionActor]

/-- C3 witness: a request at version 5 with oldestVersion 2 and current
version 10 proceeds with version 5. -/
theorem C3_version_window_witness :
    waitForVersion 2 10 false 5 WaitOutcome.timedOut = .ok 5 :=
  (C3_version_window 2 10 5 WaitOutcome.timedOut (by decide)).2.1
    (by decide) (by decide)

namespace StorageCore

/-- ccAt at a key is unchanged by shard-map mutations whose ranges do not
contain that key. -/
theorem applyShardChanges_ccAt (s : ShardMapView) (ops : List (Nat × Nat)) (k : Nat)
    (h : ∀ p ∈ ops, ¬ (p.1 ≤ k ∧ k < p.2)) :
    (applyShardChanges s ops).ccAt k = s.ccAt k := by
  induction ops generalizing s with
  | nil => rfl
  | cons p rest ih =>
      have hp : ¬ (p.1 ≤ k ∧ k < p.2) := h p (List.mem_cons_self p rest)
      have hrest : ∀ q ∈ rest, ¬ (q.1 ≤ k ∧ k < q.2) := fun q hq =>
        h q (List.mem_cons_of_mem p hq)
      show (applyShardChanges (addShard s p.1 p.2) rest).ccAt k = s.ccAt k
      rw [ih (addShard s p.1 p.2) hrest]
      simp [addShard, hp]

/-- Shard-map mutations never lower the global counter and preserve the
invariant that each per-key counter is at most the global one. -/
theorem applyShardChanges_inv (s : ShardMapView) (ops : List (Nat × Nat))
    (hinv : ShardMapInv s) :
    ShardMapInv (applyShardChanges s ops) ∧
      s.counter ≤ (applyShardChanges s ops).counter := by
  induction ops generalizing s with
  | nil => exact ⟨hinv, le_refl _⟩
  | cons p rest ih =>
      have hinv2 : ShardMapInv (addShard s p.1 p.2) := by
        intro k
        simp only [addShard]
        by_cases hk : p.1 ≤ k ∧ k < p.2
        · simp [hk]
        · simp only [if_neg hk]
          exact Nat.le_succ_of_le (hinv k)
      have := ih (addShard s p.1 p.2) hinv2
      refine ⟨this.1, ?_⟩
      exact le_trans (Nat.le_succ _) this.2

end StorageCore

/-- C9: the change-counter re-check fails only when a shard now covering
the queried key (or a key of the queried range) has a changeCounter
strictly above the captured value; shard-map changes whose new shards do
not intersect the queried key or range never make the check fail, even
though the global counter has advanced. -/
theorem C9_change_counter_check (s : ShardMapView) (key lo hi : Nat)
    (ops : List (Nat × Nat)) (hinv : ShardMapInv s) :
    (∀ (captured : Nat) (t : ShardMapView),
        checkChangeCounterThrows captured t key = true → captured < t.ccAt key) ∧
      (∀ (captured : Nat) (t : ShardMapView),
        checkChangeCounterRangeThrows captured t lo hi = true →
          ∃ k, lo ≤ k ∧ k < hi ∧ captured < t.ccAt k) ∧
      ((∀ p ∈ ops, ¬ (p.1 ≤ key ∧ key < p.2)) →
        checkChangeCounterThrows s.counter (applyShardChanges s ops) key = false) ∧
      ((∀ p ∈ ops, hi ≤ p.1 ∨ p.2 ≤ lo) →
        checkChangeCounterRangeThrows s.counter (applyShardChanges s ops) lo hi = false) := by
  refine ⟨?_, ?_, ?_, ?_⟩
  · intro captured t h
    simp only [checkChangeCounterThrows, Bool.and_eq_true, decide_eq_true_eq] at h
    exact h.2
  · intro captured t h
    simp only [checkChangeCounterRangeThrows, Bool.and_eq_true, List.any_eq_true,
      decide_eq_true_eq] at h
    obtain ⟨k, hk, hgt⟩ := h.2
    rw [List.mem_range'_1] at hk
    exact ⟨k, hk.1, by omega, hgt⟩
  · intro h
    have hcc := applyShardChanges_ccAt s ops key h
    simp only [checkChangeCounterThrows, Bool.and_eq_false_iff]
    right
    rw [decide_eq_false_iff_not, not_lt, hcc]
    exact hinv key
  · intro h
    simp only [checkChangeCounterRangeThrows, Bool.and_eq_false_iff]
    right
    rw [List.any_eq_false]
    intro k hk
    rw [List.mem_range'_1] at hk
    have hknot : ∀ p ∈ ops, ¬ (p.1 ≤ k ∧ k < p.2) := by
      intro p hp
      rcases h p hp with h1 | h1 <;> omega
    have hcc := applyShardChanges_ccAt s ops k hknot
    simp only [decide_eq_true_eq, gt_iff_lt, not_lt, hcc]
    exact hinv k

/-- C9 witness: two shard insertions away from key 5 and range [4, 6)
advance the counter from 3 to 5 but neither re-check fails. -/
theorem C9_change_counter_check_witness :
    checkChangeCounterThrows 3
        (applyShardChanges ⟨3, fun _ => 2⟩ [(10, 20), (30, 40)]) 5 = false ∧
      checkChangeCounterRangeThrows 3
        (applyShardChanges ⟨3, fun _ => 2⟩ [(10, 20), (30, 40)]) 4 6 = false :=
  ⟨(C9_change_counter_check ⟨3, fun _ => 2⟩ 5 4 6 [(10, 20), (30, 40)]
      (fun _ => by norm_num)).2.2.1 (by decide),
   (C9_change_counter_check ⟨3, fun _ => 2⟩ 5 4 6 [(10, 20), (30, 40)]
      (fun _ => by norm_num)).2.2.2 (by decide)⟩

/-- C5 counterexample: with MAX_READ_TRANSACTION_LIFE_VERSIONS = 5, no
recovery skips, version = 100, minKnownCommittedVersion = 200,
lastTLogVersion = 0, oldestVersion = 0, previous desiredOldestVersion = 0
and non-primary locality, the update loop sets desiredOldestVersion to
99, not to min(100 - 5, 200 - 5) = 95 as the claim states: the code takes
the max of version and knownCommittedVersion, not the min. -/
theorem C5_counterexample_max_not_min :
    proposeOldestVersion 5 [] 100 200 0 0 0 false = 99 ∧
      ¬ ((99 : Int) = min (100 - 5) (200 - 5)) := by
  constructor
  · rfl
  · decide

/-- C5 (amended): at the end of an update-loop iteration the code sets
desiredOldestVersion to
max(previous desiredOldestVersion, oldestVersion, min(version - 1, B))
where B = max(version, knownCommittedVersion) - maxVersionsInMemory,
additionally raised to lastTLogVersion - maxVersionsInMemory on a
primary-locality server, and maxVersionsInMemory is
MAX_READ_TRANSACTION_LIFE_VERSIONS plus the total width of the recorded
recovery version skips. -/
theorem C5_desired_oldest_formula (maxReadLife : Int) (skips : List Int)
    (version minKnownCommitted lastTLogVersion oldest desiredOldest : Int)
    (isPrimary : Bool) :
    proposeOldestVersion maxReadLife skips version minKnownCommitted
        lastTLogVersion oldest desiredOldest isPrimary =
      max desiredOldest (max oldest (min (version - 1)
        (if isPrimary
          then max (max version minKnownCommitted) lastTLogVersion -
            (maxReadLife + skips.sum)
          else max version minKnownCommitted - (maxReadLife + skips.sum)))) := by
  unfold proposeOldestVersion
  cases isPrimary <;> simp only [if_pos, if_neg, Bool.false_eq_true,
    not_false_iff, ite_true, ite_false] <;> omega

namespace StorageCore

/-! ## Mutation routing across shards -/

/-- A mutation as routed by the update pipeline: SetValue and the atomic
operations are single-key (param1), ClearRange carries a key range.
atomicOp stands in for the whole family of atomic mutation types, which
the routing code treats identically to SetValue (isSingleKeyMutation). -/
inductive Mutation
  | setValue (k v : Nat)
  | clearRange (b e : Nat)
  | atomicOp (k v : Nat)
  deriving DecidableEq, Repr

/-- param1 of a mutation (for single-key mutations, its key). -/
def mutationKey : Mutation → Nat
  | .setValue k _ => k
  | .clearRange b _ => b
  | .atomicOp k _ => k

/-- Per-shard lifecycle state; the three adding states are the phases of
AddingShard (WaitPrevious, Fetching, Waiting). -/
inductive ShardState
  | notAssigned
  | addingWaitPrevious
  | addingFetching
  | addingWaiting
  | readWrite
  deriving DecidableEq, Repr

/-- What happened to a mutation delivered to one shard. -/
inductive AddResult
  | appliedToVM
  | queuedToShard
  | discarded
  | ignored
  | assertFailed
  deriving DecidableEq, Repr

/-- ShardInfo::addMutation combined with AddingShard::addMutation:
an adding shard discards during WaitPrevious, queues during Fetching and
applies during Waiting; a read-write shard applies; a not-assigned shard
silently ignores a ClearRange and fails the assertion (Mutation delivered
to notAssigned shard) for anything else. -/
def shardInfoAddMutation (st : ShardState) (m : Mutation) : AddResult :=
  match st with
  | .addingWaitPrevious => .discarded
  | .addingFetching => .queuedToShard
  | .addingWaiting => .appliedToVM
  | .readWrite => .appliedToVM
  | .notAssigned =>
      match m with
      | .clearRange _ _ => .ignored
      | _ => .assertFailed

/-- One shard of the shard map: a key range [lo, hi) in one lifecycle
state. -/
structure ShardTile where
  lo : Nat
  hi : Nat
  state : ShardState
  deriving DecidableEq, Repr

/-- splitMutation (storageserver.actor.cpp): a single-key mutation goes
to the shard whose range contains its key; a ClearRange is clipped to
each intersecting shard; each piece is delivered to that shard by
ShardInfo::addMutation. The SHORT_CIRCUT_ACTUAL_STORAGE knob is false in
production and is omitted. -/
def splitMutationModel (tiles : List ShardTile) (m : Mutation) : List AddResult :=
  match m with
  | .clearRange b e =>
      (tiles.filter fun t => decide (t.lo < e) && decide (b < t.hi)).map
        fun t => shardInfoAddMutation t.state (.clearRange (max b t.lo) (min e t.hi))
  | _ =>
      match tiles.find? (fun t =>
          decide (t.lo ≤ mutationKey m) && decide (mutationKey m < t.hi)) with
      | some t => [shardInfoAddMutation t.state m]
      | none => []

/-! ## Rollback markers -/

/-- The in-memory mutation deque of one change feed; each element is the
(version, knownCommittedOrRollbackVersion) header of one
MutationsAndVersionRef entry. -/
structure ChangeFeedDeque where
  id : Nat
  mutations : List (Int × Int)
  deriving DecidableEq, Repr

/-- The lastEpochEnd (rollback marker) branch of
StorageUpdater::applyPrivateData: when the decoded rollbackVersion is
below fromVersion (the version of the previous batch) and above
restoredVersion, the code asserts rollbackVersion at or above
storageVersion and calls rollback, which throws please_reboot, so the
change-feed loop below it never runs; otherwise no error is thrown and
the marker is appended as a synthetic entry to the deque of every open
change feed. -/
def applyRollbackMarker (rollbackVersion currentVersion fromVersion
    restoredVersion storageVersion : Int) (feeds : List ChangeFeedDeque) :
    Except SSError Unit × List ChangeFeedDeque :=
  if rollbackVersion < fromVersion ∧ restoredVersion < rollbackVersion then
    if storageVersion ≤ rollbackVersion then (.error .pleaseReboot, feeds)
    else (.error .assertionFailed, feeds)
  else
    (.ok (), feeds.map fun f =>
      { f with mutations := f.mutations ++ [(currentVersion, rollbackVersion)] })

end StorageCore

/-- C7 counterexample: a SetValue routed to a shard in state NotAssigned
is not silently discarded: it reaches the error branch and fails the
assertion, contradicting the claim that the error branch is unreachable
and that applying never fails. -/
theorem C7_counterexample_set_on_not_assigned :
    splitMutationModel [⟨0, 10, ShardState.notAssigned⟩]
      (Mutation.setValue 5 1) = [AddResult.assertFailed] := by
  rfl

/-- C7 (amended): a ClearRange routed across shards never fails; on a
NotAssigned shard it is silently ignored; but a non-ClearRange mutation
whose containing shard is NotAssigned hits the error branch and fails
the assertion (Mutation delivered to notAssigned shard). -/
theorem C7_not_assigned_routing (tiles : List ShardTile) (b e k v : Nat)
    (t : ShardTile) :
    (∀ r ∈ splitMutationModel tiles (.clearRange b e), r ≠ .assertFailed) ∧
      shardInfoAddMutation .notAssigned (.clearRange b e) = .ignored ∧
      (tiles.find? (fun u => decide (u.lo ≤ k) && decide (k < u.hi)) = some t →
        t.state = .notAssigned →
        splitMutationModel tiles (.setValue k v) = [.assertFailed] ∧
          splitMutationModel tiles (.atomicOp k v) = [.assertFailed]) := by
  refine ⟨?_, rfl, ?_⟩
  · intro r hr
    simp only [splitMutationModel, List.mem_map] at hr
    obtain ⟨u, _, hu⟩ := hr
    cases hstate : u.state <;> rw [hstate] at hu <;> simp [shardInfoAddMutation] at hu <;>
      simp [← hu]
  · intro hfind hstate
    constructor
    · simp only [splitMutationModel, mutationKey]
      rw [hfind]
      simp [shardInfoAddMutation, hstate]
    · simp only [splitMutationModel, mutationKey]
      rw [hfind]
      simp [shardInfoAddMutation, hstate]

/-- C7 witness: concrete routing through a three-shard map whose middle
shard contains key 5 and is NotAssigned. -/
theorem C7_not_assigned_routing_witness :
    splitMutationModel
        [⟨0, 3, ShardState.readWrite⟩, ⟨3, 10, ShardState.notAssigned⟩,
          ⟨10, 20, ShardState.readWrite⟩] (Mutation.setValue 5 1) =
      [AddResult.assertFailed] :=
  ((C7_not_assigned_routing
      [⟨0, 3, ShardState.readWrite⟩, ⟨3, 10, ShardState.notAssigned⟩,
        ⟨10, 20, ShardState.readWrite⟩] 0 1 5 1
      ⟨3, 10, ShardState.notAssigned⟩).2.2 (by rfl) (by rfl)).1

/-- C4 counterexample: first, with storageVersion = 4 ≤ rollbackVersion
= 5 < currentVersion = 10 but fromVersion = 3, the claimed condition for
rebooting holds yet no PleaseReboot is thrown (the code tests
rollbackVersion against fromVersion, not against currentVersion);
second, when the code does throw PleaseReboot the change-feed deques are
left untouched, because the throw precedes the append loop, so the two
behaviors the claim conjoins never happen together. -/
theorem C4_counterexample_rollback :
    applyRollbackMarker 5 10 3 0 4 [⟨1, []⟩] =
        (.ok (), [⟨1, [(10, 5)]⟩]) ∧
      applyRollbackMarker 2 10 3 0 1 [⟨1, []⟩] =
        (.error .pleaseReboot, [⟨1, []⟩]) := by
  constructor
  · rfl
  · rfl

/-- C4 (amended): a rollback marker with rollbackVersion rv throws
PleaseReboot exactly when rv is below fromVersion (the previous batch
version) and above restoredVersion, with the assertion
rv at or above storageVersion; in that case the change feeds are left
unchanged (recovery will replay from PKE). Only when no reboot is thrown
is the marker appended as a synthetic entry to the mutation deque of
every open change feed. -/
theorem C4_rollback_reboot (rv cv fromV restoredV storageV : Int)
    (feeds : List ChangeFeedDeque) :
    (rv < fromV → restoredV < rv → storageV ≤ rv →
        applyRollbackMarker rv cv fromV restoredV storageV feeds =
          (.error .pleaseReboot, feeds)) ∧
      (¬ (rv < fromV ∧ restoredV < rv) →
        applyRollbackMarker rv cv fromV restoredV storageV feeds =
          (.ok (), feeds.map fun f =>
            { f with mutations := f.mutations ++ [(cv, rv)] })) := by
  constructor
  · intro h1 h2 h3
    unfold applyRollbackMarker
    rw [if_pos ⟨h1, h2⟩, if_pos h3]
  · intro h
    unfold applyRollbackMarker
    rw [if_neg h]

/-- C4 witness: a marker that rolls back below the previous batch version
throws PleaseReboot and leaves the feed deque untouched. -/
theorem C4_rollback_reboot_witness :
    applyRollbackMarker 2 10 3 0 1 [⟨7, [(1, 1)]⟩] =
      (.error .pleaseReboot, [⟨7, [(1, 1)]⟩]) :=
  (C4_rollback_reboot 2 10 3 0 1 [⟨7, [(1, 1)]⟩]).1 (by decide) (by decide)
    (by decide)

namespace StorageCore

/-! ## Change-feed pop -/

/-- The per-feed state touched by a pop: emptyVersion, the in-memory
deque (modelled by the ascending versions of its MutationsAndVersion
entries), the feed storage/durable version marks, and the versions of
the durable entries under the per-feed key prefix in PKE. -/
structure ChangeFeedState where
  emptyVersion : Int
  mutations : List Int
  storageVersion : Int
  durableVersion : Int
  durableEntries : List Int
  deriving DecidableEq, Repr

/-- storage.clearRange(changeFeedDurableKey(id, 0),
changeFeedDurableKey(id, v)): the durable key encodes the version
big-endian and unsigned, so the clear removes exactly the durable
entries whose version lies in [0, v). -/
def clearDurableBelow (entries : List Int) (v : Int) : List Int :=
  entries.filter fun x => decide (x < 0) || decide (v ≤ x)

/-- The shared body of both pop paths (changeFeedPopQ and the
change-feed private mutation handler): raise emptyVersion to v - 1, drop
in-memory entries below v from the front of the deque, and, when the
feed has durable data, clear its durable entries below v, invalidating
the storage/durable marks when the pop passes storageVersion. -/
def popBody (f : ChangeFeedState) (v : Int) : ChangeFeedState :=
  let f1 := { f with
    emptyVersion := v - 1,
    mutations := f.mutations.dropWhile fun x => decide (x < v) }
  if f.storageVersion ≠ invalidVersion then
    let f2 := { f1 with durableEntries := clearDurableBelow f1.durableEntries v }
    if f.storageVersion < v then
      { f2 with storageVersion := invalidVersion, durableVersion := invalidVersion }
    else f2
  else f1

/-- changeFeedPopQ (storageserver.actor.cpp) on an existing feed of a
readable range: a no-op unless v - 1 exceeds the current emptyVersion. -/
def changeFeedPop (f : ChangeFeedState) (v : Int) : ChangeFeedState :=
  if f.emptyVersion < v - 1 then popBody f v else f

/-- The pop carried by a private-key change-feed mutation
(StorageUpdater::applyPrivateData): same body, additionally guarded by
popVersion being a valid version. -/
def applyPrivateChangeFeedPop (f : ChangeFeedState) (popVersion : Int) :
    ChangeFeedState :=
  if popVersion ≠ invalidVersion ∧ f.emptyVersion < popVersion - 1 then
    popBody f popVersion
  else f

/-- Feed state invariant maintained by the engine: deque versions are
strictly ascending and above emptyVersion, durable entry versions are
nonnegative and above emptyVersion, and a feed without a storage mark has
no durable entries. -/
def ChangeFeedInv (f : ChangeFeedState) : Prop :=
  f.mutations.Pairwise (· < ·) ∧
    (∀ x ∈ f.mutations, f.emptyVersion < x) ∧
    (∀ x ∈ f.durableEntries, 0 ≤ x ∧ f.emptyVersion < x) ∧
    (f.storageVersion = invalidVersion → f.durableEntries = [])

/-- On a strictly ascending list, dropping the front entries below v
removes exactly the entries below v. -/
theorem dropWhile_lt_eq_filter (l : List Int) (v : Int)
    (h : l.Pairwise (· < ·)) :
    (l.dropWhile fun x => decide (x < v)) = l.filter fun x => decide (v ≤ x) := by
  induction l with
  | nil => rfl
  | cons a t ih =>
      rw [List.pairwise_cons] at h
      by_cases ha : a < v
      · have h1 : ¬ v ≤ a := not_le.mpr ha
        rw [List.dropWhile_cons, List.filter_cons]
        simp only [ha, decide_eq_true_eq, if_pos, h1, if_neg, decide_eq_false_iff_not]
        simpa using ih h.2
      · have hav : v ≤ a := not_lt.mp ha
        have hall : ∀ x ∈ t, v ≤ x := fun x hx =>
          le_trans hav (le_of_lt (h.1 x hx))
        rw [List.dropWhile_cons, List.filter_cons]
        simp only [ha, hav, decide_eq_true_eq, decide_eq_false_iff_not]
        simp only [decide_eq_true hav, if_pos, not_false_eq_true,
          decide_eq_false ha, Bool.false_eq_true, if_neg]
        rw [List.filter_eq_self.mpr fun x hx => decide_eq_true (hall x hx)]

end StorageCore

/-- C6: popping an existing change feed to version v sets emptyVersion
to max(emptyVersion, v - 1), drops exactly the in-memory deque entries
with version below v, and clears exactly the durable entries with
version below v; and the pop delivered through a private-key change-feed
mutation (with a valid popVersion) behaves identically to the pop RPC. -/
theorem C6_change_feed_pop (f : ChangeFeedState) (v : Int)
    (hinv : ChangeFeedInv f) :
    (changeFeedPop f v).emptyVersion = max f.emptyVersion (v - 1) ∧
      (changeFeedPop f v).mutations =
        (f.mutations.filter fun x => decide (v ≤ x)) ∧
      (changeFeedPop f v).durableEntries =
        (f.durableEntries.filter fun x => decide (v ≤ x)) ∧
      (v ≠ invalidVersion → applyPrivateChangeFeedPop f v = changeFeedPop f v) := by
  obtain ⟨hsort, hmem, hdur, hstor⟩ := hinv
  have hpriv : v ≠ invalidVersion →
      applyPrivateChangeFeedPop f v = changeFeedPop f v := by
    intro hv
    unfold applyPrivateChangeFeedPop changeFeedPop
    by_cases hc : f.emptyVersion < v - 1
    · rw [if_pos ⟨hv, hc⟩, if_pos hc]
    · rw [if_neg (fun hand => hc hand.2), if_neg hc]
  have hdrop := dropWhile_lt_eq_filter f.mutations v hsort
  have hclear : clearDurableBelow f.durableEntries v =
      (f.durableEntries.filter fun x => decide (v ≤ x)) := by
    unfold clearDurableBelow
    refine List.filter_congr fun x hx => ?_
    have h0 : ¬ x < 0 := not_lt.mpr (hdur x hx).1
    simp [h0]
  have hemp : (changeFeedPop f v).emptyVersion = max f.emptyVersion (v - 1) := by
    by_cases hc : f.emptyVersion < v - 1
    · have hmax : max f.emptyVersion (v - 1) = v - 1 := max_eq_right (le_of_lt hc)
      rw [hmax]
      by_cases hs : f.storageVersion ≠ invalidVersion
      · by_cases hlt : f.storageVersion < v
        · simp [changeFeedPop, popBody, hc, hs, hlt]
        · simp [changeFeedPop, popBody, hc, hs, hlt]
      · simp [changeFeedPop, popBody, hc, hs]
    · rw [max_eq_left (not_lt.mp hc)]
      simp [changeFeedPop, hc]
  have hmut : (changeFeedPop f v).mutations =
      (f.mutations.filter fun x => decide (v ≤ x)) := by
    by_cases hc : f.emptyVersion < v - 1
    · by_cases hs : f.storageVersion ≠ invalidVersion
      · by_cases hlt : f.storageVersion < v
        · simp [changeFeedPop, popBody, hc, hs, hlt, hdrop]
        · simp [changeFeedPop, popBody, hc, hs, hlt, hdrop]
      · simp [changeFeedPop, popBody, hc, hs, hdrop]
    · rw [List.filter_eq_self.mpr fun x hx =>
        decide_eq_true (show v ≤ x by have := hmem x hx; omega)]
      simp [changeFeedPop, hc]
  have hdurE : (changeFeedPop f v).durableEntries =
      (f.durableEntries.filter fun x => decide (v ≤ x)) := by
    by_cases hc : f.emptyVersion < v - 1
    · by_cases hs : f.storageVersion ≠ invalidVersion
      · by_cases hlt : f.storageVersion < v
        · simp [changeFeedPop, popBody, hc, hs, hlt, hclear]
        · simp [changeFeedPop, popBody, hc, hs, hlt, hclear]
      · have hempty : f.durableEntries = [] := hstor (not_not.mp hs)
        simp [changeFeedPop, popBody, hc, hs, hempty]
    · rw [List.filter_eq_self.mpr fun x hx =>
        decide_eq_true (show v ≤ x by have := (hdur x hx).2; omega)]
      simp [changeFeedPop, hc]
  exact ⟨hemp, hmut, hdurE, hpriv⟩

/-- C6 witness: popping a feed with emptyVersion 99, deque versions
[110, 120], storage mark 110 and durable entries [105, 110] to
version 115. -/
theorem C6_change_feed_pop_witness :
    (changeFeedPop ⟨99, [110, 120], 110, 110, [105, 110]⟩ 115).emptyVersion =
        max 99 (115 - 1) ∧
      (changeFeedPop ⟨99, [110, 120], 110, 110, [105, 110]⟩ 115).mutations =
        ([110, 120].filter fun x => decide ((115 : Int) ≤ x)) ∧
      (changeFeedPop ⟨99, [110, 120], 110, 110, [105, 110]⟩ 115).durableEntries =
        ([105, 110].filter fun x => decide ((115 : Int) ≤ x)) ∧
      ((115 : Int) ≠ invalidVersion →
        applyPrivateChangeFeedPop ⟨99, [110, 120], 110, 110, [105, 110]⟩ 115 =
          changeFeedPop ⟨99, [110, 120], 110, 110, [105, 110]⟩ 115) :=
  C6_change_feed_pop ⟨99, [110, 120], 110, 110, [105, 110]⟩ 115
    (by unfold ChangeFeedInv; refine ⟨?_, ?_, ?_, ?_⟩ <;> decide)

namespace StorageCore

/-! ## getValue read path -/

/-- An entry of one version view of the VersionedMap: a value stored at
the entry key, or a clear extending from the entry key up to endKey
(exclusive). -/
inductive VMEntry
  | val (v : Nat)
  | clearTo (endKey : Nat)
  deriving DecidableEq, Repr

/-- One version view of the VersionedMap, as the ascending association
list of its (key, entry) pairs. -/
abbrev VMView := List (Nat × VMEntry)

/-- VersionedMap view iteration order: keys strictly ascend. -/
def VMSorted (view : VMView) : Prop :=
  view.Pairwise fun a b => a.1 < b.1

/-- Whether entry p is a clear whose open interior strictly contains the
key of entry q. -/
def entryBlocks (p q : Nat × VMEntry) : Bool :=
  match p.2 with
  | VMEntry.clearTo e => decide (p.1 < q.1) && decide (q.1 < e)
  | VMEntry.val _ => false

/-- The nonoverlap invariant of the VersionedMap: no entry key lies
strictly inside the range of a clear (a value inserted inside a clear
splits it). -/
def VMNonoverlap (view : VMView) : Prop :=
  ∀ p ∈ view, ∀ q ∈ view, entryBlocks p q = false

/-- lastLessOrEqual of the VersionedMap view: the last entry (in
iteration order) whose key is at most k, hence on a sorted view the
greatest such entry. -/
def lastLessOrEqual : VMView → Nat → Option (Nat × VMEntry)
  | [], _ => none
  | e :: rest, k =>
      if e.1 ≤ k then some ((lastLessOrEqual rest k).getD e)
      else lastLessOrEqual rest k

/-- The PKE branch of getValueQ: after the asynchronous readValue the
code re-checks the version against storageVersion (which may have
advanced during the read) and re-checks the shard-change counter, then
returns the engine value. -/
def pkeReadPath (key : Nat) (pke : Nat → Option Nat)
    (ver storageVersionAfter : Int) (captured : Nat) (after : ShardMapView) :
    Except SSError (Option Nat) × Bool :=
  if ver < storageVersionAfter then (.error .transactionTooOld, true)
  else if checkChangeCounterThrows captured after key then
    (.error .wrongShardServer, true)
  else (.ok (pke key), true)

/-- The core of getValueQ after waitForVersion: reject unreadable
shards; consult VM.at(version) through lastLessOrEqual; a value exactly
at the key is returned without touching PKE; a clear covering the key
returns not-found without touching PKE; anything else falls through to
the PKE read path. The Bool records whether PKE was read. -/
def getValueCore (readable : Bool) (view : VMView) (key : Nat)
    (pke : Nat → Option Nat) (ver storageVersionAfter : Int)
    (captured : Nat) (after : ShardMapView) :
    Except SSError (Option Nat) × Bool :=
  if readable = false then (.error .wrongShardServer, false)
  else
    match lastLessOrEqual view key with
    | some (k, VMEntry.val x) =>
        if k = key then (.ok (some x), false)
        else pkeReadPath key pke ver storageVersionAfter captured after
    | some (_, VMEntry.clearTo e) =>
        if e ≤ key then pkeReadPath key pke ver storageVersionAfter captured after
        else (.ok none, false)
    | none => pkeReadPath key pke ver storageVersionAfter captured after

/-- lastLessOrEqual only returns an entry of the view, with key at most
the probe. -/
theorem lastLessOrEqual_mem (view : VMView) (k : Nat) (p : Nat × VMEntry)
    (h : lastLessOrEqual view k = some p) : p ∈ view ∧ p.1 ≤ k := by
  induction view with
  | nil => simp [lastLessOrEqual] at h
  | cons e rest ih =>
      rw [lastLessOrEqual] at h
      by_cases he : e.1 ≤ k
      · rw [if_pos he] at h
        cases hr : lastLessOrEqual rest k with
        | none =>
            rw [hr] at h
            simp only [Option.getD_none, Option.some_inj] at h
            exact ⟨h ▸ List.mem_cons_self e rest, h ▸ he⟩
        | some r =>
            rw [hr] at h
            simp only [Option.getD_some, Option.some_inj] at h
            obtain ⟨hmem, hle⟩ := ih (h ▸ hr)
            exact ⟨List.mem_cons_of_mem e hmem, hle⟩
      · rw [if_neg he] at h
        obtain ⟨hmem, hle⟩ := ih h
        exact ⟨List.mem_cons_of_mem e hmem, hle⟩

/-- If no entry of the view has key at most the probe, lastLessOrEqual
returns nothing. -/
theorem lastLessOrEqual_none (view : VMView) (k : Nat)
    (h : ∀ q ∈ view, ¬ q.1 ≤ k) : lastLessOrEqual view k = none := by
  induction view with
  | nil => rfl
  | cons e rest ih =>
      rw [lastLessOrEqual, if_neg (h e (List.mem_cons_self e rest))]
      exact ih fun q hq => h q (List.mem_cons_of_mem e hq)

/-- On a sorted view, lastLessOrEqual returns the entry at or below the
probe that dominates every other such entry. -/
theorem lastLessOrEqual_eq (view : VMView) (k : Nat) (p : Nat × VMEntry)
    (hsort : VMSorted view) (hmem : p ∈ view) (hle : p.1 ≤ k)
    (hmax : ∀ q ∈ view, q.1 ≤ k → q.1 ≤ p.1) :
    lastLessOrEqual view k = some p := by
  induction view with
  | nil => exact absurd hmem (List.not_mem_nil p)
  | cons e rest ih =>
      rw [VMSorted, List.pairwise_cons] at hsort
      rcases List.mem_cons.mp hmem with hpe | hprest
      · subst hpe
        rw [lastLessOrEqual, if_pos hle]
        have hnone : lastLessOrEqual rest k = none := by
          refine lastLessOrEqual_none rest k fun q hq hqk => ?_
          have h1 : p.1 < q.1 := hsort.1 q hq
          have h2 : q.1 ≤ p.1 := hmax q (List.mem_cons_of_mem p hq) hqk
          omega
        rw [hnone]
        rfl
      · have hep : e.1 < p.1 := hsort.1 p hprest
        have herec : lastLessOrEqual rest k = some p :=
          ih hsort.2 hprest fun q hq hqk => hmax q (List.mem_cons_of_mem e hq) hqk
        rw [lastLessOrEqual]
        by_cases he : e.1 ≤ k
        · rw [if_pos he, herec]
          rfl
        · rw [if_neg he]
          exact herec

end StorageCore

/-- C1: for a getValue that passed the version check, captured the
change counter and found its shard readable: a VersionedMap value entry
exactly at the key is returned without reading PKE; a clear covering the
key returns not-found without reading PKE; otherwise PKE is read, and
after the read the request fails TransactionTooOld when the version has
fallen below storageVersion, fails WrongShard when the shard covering
the key changed since the counter was captured, and otherwise returns
the engine value. -/
theorem C1_getValue_paths (view : VMView) (key : Nat) (pke : Nat → Option Nat)
    (ver storageVersionAfter : Int) (captured : Nat) (after : ShardMapView)
    (hsort : VMSorted view) (hno : VMNonoverlap view) :
    (∀ x, (key, VMEntry.val x) ∈ view →
        getValueCore true view key pke ver storageVersionAfter captured after =
          (.ok (some x), false)) ∧
      (∀ k0 e, (k0, VMEntry.clearTo e) ∈ view → k0 ≤ key → key < e →
        getValueCore true view key pke ver storageVersionAfter captured after =
          (.ok none, false)) ∧
      ((∀ x, (key, VMEntry.val x) ∉ view) →
       (∀ k0 e, (k0, VMEntry.clearTo e) ∈ view → ¬ (k0 ≤ key ∧ key < e)) →
        (getValueCore true view key pke ver storageVersionAfter captured after).2
            = true ∧
          (ver < storageVersionAfter →
            getValueCore true view key pke ver storageVersionAfter captured after =
              (.error .transactionTooOld, true)) ∧
          (storageVersionAfter ≤ ver →
            checkChangeCounterThrows captured after key = true →
            getValueCore true view key pke ver storageVersionAfter captured after =
              (.error .wrongShardServer, true)) ∧
          (storageVersionAfter ≤ ver →
            checkChangeCounterThrows captured after key = false →
            getValueCore true view key pke ver storageVersionAfter captured after =
              (.ok (pke key), true))) := by
  refine ⟨?_, ?_, ?_⟩
  · intro x hx
    have hlle : lastLessOrEqual view key = some (key, VMEntry.val x) :=
      lastLessOrEqual_eq view key (key, VMEntry.val x) hsort hx (le_refl key)
        fun q _ hqk => hqk
    simp [getValueCore, hlle]
  · intro k0 e hx hk0 hke
    have hmax : ∀ q ∈ view, q.1 ≤ key → q.1 ≤ k0 := by
      intro q hq hqk
      by_contra hgt
      push_neg at hgt
      have hb := hno (k0, VMEntry.clearTo e) hx q hq
      simp only [entryBlocks, Bool.and_eq_false_iff, decide_eq_false_iff_not,
        not_lt] at hb
      rcases hb with hb | hb <;> omega
    have hlle : lastLessOrEqual view key = some (k0, VMEntry.clearTo e) :=
      lastLessOrEqual_eq view key (k0, VMEntry.clearTo e) hsort hx hk0 hmax
    simp [getValueCore, hlle, not_le.mpr hke]
  · intro hnoval hnoclear
    have hpke : getValueCore true view key pke ver storageVersionAfter captured after =
        pkeReadPath key pke ver storageVersionAfter captured after := by
      unfold getValueCore
      simp only [Bool.true_eq_false, if_false, reduceIte]
      cases hlle : lastLessOrEqual view key with
      | none => rfl
      | some p =>
          obtain ⟨hmem, hle⟩ := lastLessOrEqual_mem view key p hlle
          obtain ⟨k, ent⟩ := p
          cases ent with
          | val x =>
              by_cases hk : k = key
              · subst hk
                exact absurd hmem (hnoval x)
              · simp [hk]
          | clearTo e =>
              by_cases hek : e ≤ key
              · simp [hek]
              · exact absurd ⟨hle, not_le.mp hek⟩ (hnoclear k e hmem)
    rw [hpke]
    unfold pkeReadPath
    refine ⟨?_, ?_, ?_, ?_⟩
    · split_ifs <;> rfl
    · intro hv
      rw [if_pos hv]
    · intro hv hcc
      rw [if_neg (not_lt.mpr hv), if_pos hcc]
    · intro hv hcc
      rw [if_neg (not_lt.mpr hv), hcc]
      rfl

/-- C1 witness: in a view holding a clear over [2, 4) and a value at
key 5, getValue of key 5 returns that value without reading PKE. -/
theorem C1_getValue_paths_witness :
    getValueCore true [(2, VMEntry.clearTo 4), (5, VMEntry.val 7)] 5
        (fun _ => none) 10 3 1 ⟨1, fun _ => 1⟩ = (.ok (some 7), false) :=
  (C1_getValue_paths [(2, VMEntry.clearTo 4), (5, VMEntry.val 7)] 5
      (fun _ => none) 10 3 1 ⟨1, fun _ => 1⟩
      (by unfold VMSorted; decide) (by unfold VMNonoverlap; decide)).1 7
    (by decide)

namespace StorageCore

/-! ## Shard manager: persistRangeMapping -/

/-- One range of the in-memory dataShardMap of the sharded engine:
[lo, hi) mapped to the physical shard id it belongs to (none for an
unassigned range, the map value nullptr). Physical shard ids are
abstracted to Nat; the empty-string record value is modelled by none. -/
structure DataTile where
  lo : Nat
  hi : Nat
  shard : Option Nat
  deriving DecidableEq, Repr

/-- One operation recorded in the current RocksDB write batch against
the metadata column family; keys are relative to shardMappingPrefix. -/
inductive BatchOp
  | deleteRange (lo hi : Nat)
  | put (k : Nat) (v : Option Nat)
  deriving DecidableEq, Repr

/-- Whether a data-shard range intersects [b, e). -/
def tileIntersects (t : DataTile) (b e : Nat) : Bool :=
  decide (t.lo < e) && decide (b < t.hi)

/-- dataShardMap.rangeContaining(k).value(): the physical shard id of
the range containing k, none when k is in no range or the range is
unassigned. -/
def rangeContainingShard (m : List DataTile) (k : Nat) : Option Nat :=
  match m.find? (fun t => decide (t.lo ≤ k) && decide (k < t.hi)) with
  | some t => t.shard
  | none => none

/-- ShardManager::persistRangeMapping: delete all mapping records in
[b, e); for isAdd write one record per intersecting data-shard range at
that range's begin key carrying its shard id, tracking lastKey as the
end of the last intersecting range; for not-isAdd write a single empty
record at b with lastKey = e; finally rewrite the record at lastKey with
the id of the shard containing lastKey (empty when lastKey is past the
keyspace end, modelled by the bound top, or in no assigned range). -/
def persistRangeMapping (m : List DataTile) (top : Nat) (b e : Nat)
    (isAdd : Bool) : List BatchOp :=
  let inter := m.filter fun t => tileIntersects t b e
  let records := if isAdd
    then inter.map fun t => BatchOp.put t.lo t.shard
    else [BatchOp.put b none]
  let lastKey := if isAdd
    then (match inter.getLast? with | some t => t.hi | none => e)
    else e
  let nextVal := if lastKey ≤ top then rangeContainingShard m lastKey else none
  BatchOp.deleteRange b e :: records ++ [BatchOp.put lastKey nextVal]

/-- Whether a batch operation is a put at the given key. -/
def isPutAt (op : BatchOp) (k : Nat) : Bool :=
  match op with
  | BatchOp.put k2 _ => decide (k2 = k)
  | _ => false

/-- The dataShardMap ranges tile the keyspace contiguously from the
given start key upward. -/
def contiguous : List DataTile → Nat → Bool
  | [], _ => true
  | t :: rest, start =>
      decide (t.lo = start) && decide (t.lo < t.hi) && contiguous rest t.hi

/-- Every range of a contiguous tiling starts at or after the tiling
start and is nonempty. -/
theorem contiguous_mem (m : List DataTile) (s : Nat)
    (hc : contiguous m s = true) (t : DataTile) (ht : t ∈ m) :
    s ≤ t.lo ∧ t.lo < t.hi := by
  induction m generalizing s with
  | nil => exact absurd ht (List.not_mem_nil t)
  | cons u rest ih =>
      rw [contiguous, Bool.and_eq_true, Bool.and_eq_true] at hc
      obtain ⟨⟨h1, h2⟩, h3⟩ := hc
      rw [decide_eq_true_eq] at h1 h2
      rcases List.mem_cons.mp ht with htu | htr
      · subst htu
        exact ⟨le_of_eq h1.symm, h2⟩
      · obtain ⟨ha, hb⟩ := ih u.hi h3 htr
        exact ⟨by omega, hb⟩

/-- No range of a tiling that starts at or above e intersects a range
ending at e. -/
theorem filter_intersects_nil (m : List DataTile) (s b e : Nat)
    (hc : contiguous m s = true) (hes : e ≤ s) :
    (m.filter fun u => tileIntersects u b e) = [] := by
  rw [List.filter_eq_nil_iff]
  intro t ht
  obtain ⟨h1, _⟩ := contiguous_mem m s hc t ht
  simp only [tileIntersects, Bool.and_eq_true, decide_eq_true_eq, not_and]
  omega

/-- In a contiguous tiling containing a range that ends exactly at e,
the last range intersecting [b, e) (with b < e) ends exactly at e. -/
theorem getLast_filter_intersects (m : List DataTile) (s b e : Nat)
    (hc : contiguous m s = true) (hbe : b < e)
    (hw : ∃ t ∈ m, t.hi = e) :
    ∃ t, (m.filter fun u => tileIntersects u b e).getLast? = some t ∧
      t.hi = e := by
  induction m generalizing s with
  | nil => simp at hw
  | cons u rest ih =>
      rw [contiguous, Bool.and_eq_true, Bool.and_eq_true] at hc
      obtain ⟨⟨h1, h2⟩, h3⟩ := hc
      rw [decide_eq_true_eq] at h1 h2
      by_cases hue : u.hi = e
      · have hnil : (rest.filter fun t => tileIntersects t b e) = [] :=
          filter_intersects_nil rest u.hi b e h3 (le_of_eq hue.symm)
        have hint : tileIntersects u b e = true := by
          simp only [tileIntersects, Bool.and_eq_true, decide_eq_true_eq]
          omega
        rw [List.filter_cons, if_pos hint, hnil]
        exact ⟨u, rfl, hue⟩
      · obtain ⟨t1, ht1, ht1e⟩ := hw
        have ht1r : t1 ∈ rest := by
          rcases List.mem_cons.mp ht1 with h | h
          · exact absurd (h ▸ ht1e) hue
          · exact h
        obtain ⟨tl, htl, htle⟩ := ih u.hi h3 ⟨t1, ht1r, ht1e⟩
        have hne : (rest.filter fun t => tileIntersects t b e) ≠ [] := by
          intro hnil
          rw [hnil] at htl
          exact Option.noConfusion htl
        rw [List.filter_cons]
        by_cases hint : tileIntersects u b e = true
        · rw [if_pos hint]
          obtain ⟨x, xs, hxs⟩ := List.exists_cons_of_ne_nil hne
          rw [hxs] at htl ⊢
          rw [List.getLast?_cons_cons]
          exact ⟨tl, htl, htle⟩
        · rw [if_neg hint]
          exact ⟨tl, htl, htle⟩

end StorageCore

/-- C8 counterexample: in the contiguous map with assigned range [0, 5)
on shard 1 and unassigned range [5, 10), persistRangeMapping([0, 7),
isAdd = true) writes no record at range.end = 7: the final record goes
to key 10, the end of the last intersecting in-memory range, because 7
is not a data-shard boundary. -/
theorem C8_counterexample_final_record_key :
    persistRangeMapping [⟨0, 5, some 1⟩, ⟨5, 10, none⟩] 100 0 7 true =
        [.deleteRange 0 7, .put 0 (some 1), .put 5 none, .put 10 none] ∧
      ((persistRangeMapping [⟨0, 5, some 1⟩, ⟨5, 10, none⟩] 100 0 7 true).filter
        fun op => isPutAt op 7) = [] := by
  constructor
  · rfl
  · rfl

/-- C8 (amended): for a call on a contiguous data-shard map with
b < e and, when isAdd, e lying on a data-shard boundary (as the callers
establish by mutating the map for exactly [b, e) first), the write batch
is: a deleteRange of the mapping records in [b, e); then for
isAdd = true one record per in-memory data-shard range intersecting
[b, e), at that range's begin key, carrying its physical-shard id (none,
the empty string, for unassigned ranges), while for isAdd = false a
single empty record at b; and finally the record at e rewritten with the
id of the shard containing e (none when e is past the keyspace end or in
no assigned range). -/
theorem C8_persist_range_mapping (m : List DataTile) (top b e : Nat)
    (isAdd : Bool) (hc : contiguous m 0 = true) (hbe : b < e)
    (haligned : isAdd = true → ∃ t ∈ m, t.hi = e) :
    persistRangeMapping m top b e isAdd =
      BatchOp.deleteRange b e ::
        (if isAdd
          then (m.filter fun t => tileIntersects t b e).map
            fun t => BatchOp.put t.lo t.shard
          else [BatchOp.put b none]) ++
        [BatchOp.put e (if e ≤ top then rangeContainingShard m e else none)] := by
  cases isAdd with
  | false => rfl
  | true =>
      obtain ⟨tl, htl, htle⟩ :=
        getLast_filter_intersects m 0 b e hc hbe (haligned rfl)
      unfold persistRangeMapping
      simp only [if_pos, ite_true]
      rw [htl]
      dsimp only
      rw [htle]

/-- C8 witness: a three-range map with a boundary at 7; the batch for
[1, 7) deletes the range, records the two intersecting ranges at their
begin keys, and rewrites the record at 7 with the shard containing 7. -/
theorem C8_persist_range_mapping_witness :
    persistRangeMapping
        [⟨0, 3, some 1⟩, ⟨3, 7, none⟩, ⟨7, 12, some 2⟩] 100 1 7 true =
      BatchOp.deleteRange 1 7 ::
        (if true
          then (([⟨0, 3, some 1⟩, ⟨3, 7, none⟩, ⟨7, 12, some 2⟩] :
              List DataTile).filter fun t => tileIntersects t 1 7).map
            fun t => BatchOp.put t.lo t.shard
          else [BatchOp.put 1 none]) ++
        [BatchOp.put 7 (if 7 ≤ 100
          then rangeContainingShard
            [⟨0, 3, some 1⟩, ⟨3, 7, none⟩, ⟨7, 12, some 2⟩] 7
          else none)] :=
  C8_persist_range_mapping [⟨0, 3, some 1⟩, ⟨3, 7, none⟩, ⟨7, 12, some 2⟩]
    100 1 7 true (by decide) (by decide)
    (fun _ => ⟨⟨3, 7, none⟩, by decide, rfl⟩)

namespace StorageCore

/-! ## changeDurableVersion -/

/-- One entry of the latest VersionedMap view as seen by
changeDurableVersion: its key and its insertVersion (the payload plays
no role in the erasure logic). -/
structure VMNode where
  key : Nat
  iv : Int
  deriving DecidableEq, Repr

/-- One mutation of a mutation-log batch as consumed by
changeDurableVersion: param1 and whether it is a SetValue (which may
have split a clear, so the entry right after param1 is also examined). -/
structure MLMutation where
  isSet : Bool
  key : Nat
  deriving DecidableEq, Repr

/-- One version-keyed entry of the mutation log. -/
structure MLBatch where
  version : Int
  muts : List MLMutation
  deriving DecidableEq, Repr

/-- verData.atLatest().find(k): the entry at exactly key k. -/
def vmFind (vm : List VMNode) (k : Nat) : Option VMNode :=
  vm.find? fun n => decide (n.key = k)

/-- verData.atLatest().upper_bound(k): the first entry with key above k
(on a sorted view, the least such). -/
def vmUpperBound (vm : List VMNode) (k : Nat) : Option VMNode :=
  vm.find? fun n => decide (k < n.key)

/-- verData.erase(i) of the entry at key k. -/
def vmEraseKey (vm : List VMNode) (k : Nat) : List VMNode :=
  vm.filter fun n => decide (n.key ≠ k)

/-- The find stage of the per-mutation body of changeDurableVersion at
durable candidate v: erase the latest-view entry at exactly m.param1
when its insertVersion equals v. -/
def eraseAtKey (v : Int) (vm : List VMNode) (m : MLMutation) : List VMNode :=
  match vmFind vm m.key with
  | some n => if n.iv = v then vmEraseKey vm m.key else vm
  | none => vm

/-- The SetValue stage: a set can split a clear, so for a SetValue the
upper_bound entry right after m.param1 is also erased when its
insertVersion equals v. -/
def eraseUpper (v : Int) (vm1 : List VMNode) (m : MLMutation) : List VMNode :=
  if m.isSet then
    match vmUpperBound vm1 m.key with
    | some n => if n.iv = v then vmEraseKey vm1 n.key else vm1
    | none => vm1
  else vm1

/-- The whole per-mutation body of the changeDurableVersion loop. -/
def eraseStep (v : Int) (vm : List VMNode) (m : MLMutation) : List VMNode :=
  eraseUpper v (eraseAtKey v vm m) m

/-- The whole mutation walk of one changeDurableVersion call over the
first mutation-log entry. -/
def processBatch (v : Int) (vm : List VMNode) (muts : List MLMutation) :
    List VMNode :=
  muts.foldl (eraseStep v) vm

/-- changeDurableVersion(desired) repeated until it returns true (the
caller must call again while it returns false): each call takes the
first mutation-log entry at or below desired, walks its mutations,
erases the mutation-log entries up to its version and sets
durableVersion to it; with no such entry it just sets durableVersion to
desired and stops. Returns the final latest view, mutation log and
durableVersion. -/
def changeDurableVersionLoop (vm : List VMNode) (ml : List MLBatch)
    (desired : Int) : List VMNode × List MLBatch × Int :=
  match ml with
  | [] => (vm, [], desired)
  | b :: rest =>
      if b.version ≤ desired then
        let vm2 := processBatch b.version vm b.muts
        let ml2 := rest.filter fun x => decide (b.version < x.version)
        if b.version = desired then (vm2, ml2, b.version)
        else changeDurableVersionLoop vm2 ml2 desired
      else (vm, ml, desired)
termination_by ml.length
decreasing_by
  simp_wf
  exact Nat.lt_succ_of_le (List.length_filter_le _ _)

/-- The latest view iterates in strictly ascending key order. -/
def VMKeysSorted (vm : List VMNode) : Prop :=
  vm.Pairwise fun a b => a.key < b.key

/-- The mutation log is a map ordered by strictly ascending version. -/
def MLSorted (ml : List MLBatch) : Prop :=
  ml.Pairwise fun a b => a.version < b.version

/-- A latest-view entry is covered by a batch (relative to a view
superset vm0) when some mutation of the batch has the entry key as
param1, or some SetValue of the batch has param1 directly below the
entry key with no other entry of vm0 in between (the split-clear right
half). Entries inserted at a version are covered by that version's
batch: this is the system invariant linking applyMutation to the
mutation log. -/
def covers (vm0 : List VMNode) (muts : List MLMutation) (n : VMNode) : Prop :=
  (∃ m ∈ muts, m.key = n.key) ∨
    (∃ m ∈ muts, m.isSet = true ∧ m.key < n.key ∧
      ∀ f ∈ vm0, ¬ (m.key < f.key ∧ f.key < n.key))

instance coversDecidable (vm0 : List VMNode) (muts : List MLMutation)
    (n : VMNode) : Decidable (covers vm0 muts n) := by
  unfold covers
  exact inferInstance

/-- Each stage of the erasure, and hence the whole step, keeps a
sublist of the view. -/
theorem eraseAtKey_sublist (v : Int) (vm : List VMNode) (m : MLMutation) :
    (eraseAtKey v vm m).Sublist vm := by
  unfold eraseAtKey
  cases vmFind vm m.key with
  | none => exact List.Sublist.refl vm
  | some n =>
      dsimp only
      by_cases hiv : n.iv = v
      · rw [if_pos hiv]
        exact List.filter_sublist vm
      · rw [if_neg hiv]

/-- The SetValue stage keeps a sublist of its input view. -/
theorem eraseUpper_sublist (v : Int) (vm1 : List VMNode) (m : MLMutation) :
    (eraseUpper v vm1 m).Sublist vm1 := by
  unfold eraseUpper
  by_cases hset : m.isSet
  · rw [if_pos hset]
    cases vmUpperBound vm1 m.key with
    | none => exact List.Sublist.refl vm1
    | some n =>
        dsimp only
        by_cases hiv : n.iv = v
        · rw [if_pos hiv]
          exact List.filter_sublist vm1
        · rw [if_neg hiv]
  · rw [if_neg hset]

/-- The per-mutation step keeps a sublist of the view. -/
theorem eraseStep_sublist (v : Int) (vm : List VMNode) (m : MLMutation) :
    (eraseStep v vm m).Sublist vm :=
  (eraseUpper_sublist v (eraseAtKey v vm m) m).trans (eraseAtKey_sublist v vm m)

/-- The whole batch walk keeps a sublist of the view. -/
theorem processBatch_sublist (v : Int) (vm : List VMNode)
    (muts : List MLMutation) : (processBatch v vm muts).Sublist vm := by
  induction muts generalizing vm with
  | nil => exact List.Sublist.refl vm
  | cons m rest ih =>
      exact (ih (eraseStep v vm m)).trans (eraseStep_sublist v vm m)

/-- On a sorted view, find of a member key returns exactly that
entry. -/
theorem vmFind_eq_of_sorted (vm : List VMNode) (n : VMNode)
    (hs : VMKeysSorted vm) (hn : n ∈ vm) : vmFind vm n.key = some n := by
  induction vm with
  | nil => exact absurd hn (List.not_mem_nil n)
  | cons u rest ih =>
      rw [VMKeysSorted, List.pairwise_cons] at hs
      rcases List.mem_cons.mp hn with h | h
      · subst h
        simp [vmFind, List.find?_cons]
      · have hlt : u.key < n.key := hs.1 n h
        have hne : ¬ u.key = n.key := by omega
        have hrec := ih hs.2 h
        rw [vmFind, List.find?_cons, decide_eq_false hne]
        simpa [vmFind] using hrec

/-- On a sorted view, upper_bound of k returns the member above k that
every other member above k dominates. -/
theorem vmUpperBound_eq_of_sorted (vm : List VMNode) (k : Nat) (n : VMNode)
    (hs : VMKeysSorted vm) (hn : n ∈ vm) (hk : k < n.key)
    (hmin : ∀ f ∈ vm, k < f.key → n.key ≤ f.key) :
    vmUpperBound vm k = some n := by
  induction vm with
  | nil => exact absurd hn (List.not_mem_nil n)
  | cons u rest ih =>
      rw [VMKeysSorted, List.pairwise_cons] at hs
      rcases List.mem_cons.mp hn with h | h
      · subst h
        simp [vmUpperBound, List.find?_cons, hk]
      · have hun : u.key < n.key := hs.1 n h
        have hku : ¬ k < u.key := by
          intro hcon
          have := hmin u (List.mem_cons_self u rest) hcon
          omega
        have hrec := ih hs.2 h fun f hf hkf =>
          hmin f (List.mem_cons_of_mem u hf) hkf
        rw [vmUpperBound, List.find?_cons, decide_eq_false hku]
        simpa [vmUpperBound] using hrec

/-- Membership in the erased view. -/
theorem mem_vmEraseKey (vm : List VMNode) (k : Nat) (x : VMNode) :
    x ∈ vmEraseKey vm k ↔ x ∈ vm ∧ x.key ≠ k := by
  simp [vmEraseKey, List.mem_filter]

/-- The find stage never touches entries at other keys. -/
theorem mem_eraseAtKey_of_ne (v : Int) (vm : List VMNode) (m : MLMutation)
    (n : VMNode) (hn : n ∈ vm) (hne : n.key ≠ m.key) :
    n ∈ eraseAtKey v vm m := by
  unfold eraseAtKey
  cases vmFind vm m.key with
  | none => exact hn
  | some w =>
      dsimp only
      by_cases hiv : w.iv = v
      · rw [if_pos hiv]
        exact (mem_vmEraseKey vm m.key n).mpr ⟨hn, hne⟩
      · rw [if_neg hiv]
        exact hn

/-- The heart of C2: an entry of the sorted view with insertVersion v
that the mutation covers (directly at its param1, or as the immediate
successor of a SetValue param1 within the superset vm0) does not survive
the erase step at v. -/
theorem covered_not_mem_eraseStep (v : Int) (vm0 vm : List VMNode)
    (m : MLMutation) (n : VMNode) (hs : VMKeysSorted vm)
    (hsub : ∀ x ∈ vm, x ∈ vm0) (hn : n ∈ vm) (hiv : n.iv = v) :
    (m.key = n.key → n ∉ eraseStep v vm m) ∧
      (m.isSet = true → m.key < n.key →
        (∀ f ∈ vm0, ¬ (m.key < f.key ∧ f.key < n.key)) →
        n ∉ eraseStep v vm m) := by
  constructor
  · intro hkey hmem
    have hfind : vmFind vm m.key = some n := by
      rw [hkey]
      exact vmFind_eq_of_sorted vm n hs hn
    have hstage : eraseAtKey v vm m = vmEraseKey vm m.key := by
      unfold eraseAtKey
      rw [hfind]
      dsimp only
      rw [if_pos hiv]
    have hmem1 : n ∈ eraseAtKey v vm m :=
      (eraseUpper_sublist v (eraseAtKey v vm m) m).subset hmem
    rw [hstage] at hmem1
    exact ((mem_vmEraseKey vm m.key n).mp hmem1).2 hkey.symm
  · intro hset hlt hgap hmem
    have hne : n.key ≠ m.key := by omega
    have hn1 : n ∈ eraseAtKey v vm m := mem_eraseAtKey_of_ne v vm m n hn hne
    have hs1 : VMKeysSorted (eraseAtKey v vm m) :=
      List.Pairwise.sublist (eraseAtKey_sublist v vm m) hs
    have hmin : ∀ f ∈ eraseAtKey v vm m, m.key < f.key → n.key ≤ f.key := by
      intro f hf hkf
      have hf0 : f ∈ vm0 := hsub f ((eraseAtKey_sublist v vm m).subset hf)
      have := hgap f hf0
      omega
    have hub : vmUpperBound (eraseAtKey v vm m) m.key = some n :=
      vmUpperBound_eq_of_sorted (eraseAtKey v vm m) m.key n hs1 hn1 hlt hmin
    have : eraseStep v vm m = vmEraseKey (eraseAtKey v vm m) n.key := by
      unfold eraseStep eraseUpper
      rw [if_pos hset, hub]
      dsimp only
      rw [if_pos hiv]
    rw [this] at hmem
    exact ((mem_vmEraseKey _ n.key n).mp hmem).2 rfl

/-- An entry of the sorted view with insertVersion v covered by the
batch does not survive the batch walk at v. -/
theorem processBatch_erases_covered (v : Int) (vm0 : List VMNode)
    (muts : List MLMutation) :
    ∀ (vm : List VMNode), VMKeysSorted vm → (∀ x ∈ vm, x ∈ vm0) →
      ∀ n ∈ processBatch v vm muts, n.iv = v → ¬ covers vm0 muts n := by
  induction muts with
  | nil =>
      intro vm _ _ n _ _ hcov
      rcases hcov with ⟨m, hm, _⟩ | ⟨m, hm, _⟩ <;> exact absurd hm (List.not_mem_nil m)
  | cons m rest ih =>
      intro vm hs hsub n hn hiv hcov
      have hn1 : n ∈ processBatch v (eraseStep v vm m) rest := hn
      have hnstep : n ∈ eraseStep v vm m :=
        (processBatch_sublist v (eraseStep v vm m) rest).subset hn1
      have hnvm : n ∈ vm := (eraseStep_sublist v vm m).subset hnstep
      have hs1 : VMKeysSorted (eraseStep v vm m) :=
        List.Pairwise.sublist (eraseStep_sublist v vm m) hs
      have hsub1 : ∀ x ∈ eraseStep v vm m, x ∈ vm0 := fun x hx =>
        hsub x ((eraseStep_sublist v vm m).subset hx)
      rcases hcov with ⟨m1, hm1, hk⟩ | ⟨m1, hm1, hset, hlt, hgap⟩
      · rcases List.mem_cons.mp hm1 with he | hr
        · subst he
          exact (covered_not_mem_eraseStep v vm0 vm m1 n hs hsub hnvm hiv).1 hk hnstep
        · exact ih (eraseStep v vm m) hs1 hsub1 n hn1 hiv (Or.inl ⟨m1, hr, hk⟩)
      · rcases List.mem_cons.mp hm1 with he | hr
        · subst he
          exact (covered_not_mem_eraseStep v vm0 vm m1 n hs hsub hnvm
            hiv).2 hset hlt hgap hnstep
        · exact ih (eraseStep v vm m) hs1 hsub1 n hn1 hiv
            (Or.inr ⟨m1, hr, hset, hlt, hgap⟩)

/-- Entries of a sorted view are determined by their key. -/
theorem eq_of_mem_sorted_key (vm : List VMNode) (hs : VMKeysSorted vm)
    (a b : VMNode) (ha : a ∈ vm) (hb : b ∈ vm) (hk : a.key = b.key) :
    a = b := by
  induction vm with
  | nil => exact absurd ha (List.not_mem_nil a)
  | cons u rest ih =>
      rw [VMKeysSorted, List.pairwise_cons] at hs
      rcases List.mem_cons.mp ha with h1 | h1 <;>
        rcases List.mem_cons.mp hb with h2 | h2
      · rw [h1, h2]
      · subst h1
        have := hs.1 b h2
        omega
      · subst h2
        have := hs.1 a h1
        omega
      · exact ih hs.2 h1 h2

/-- The full changeDurableVersion loop: starting from a sorted latest
view vm (contained in the snapshot vm0 used to state the split-clear
coverage), a version-sorted mutation log whose batches at or below
desired cover every view entry inserted at their version, the loop ends
with durableVersion = desired, the mutation log reduced to the entries
above desired, and every surviving latest-view entry having
insertVersion above desired. -/
theorem changeDurableVersionLoop_spec (vm0 : List VMNode) (N : Nat) :
    ∀ (ml : List MLBatch) (vm : List VMNode) (desired : Int),
      ml.length ≤ N → MLSorted ml → VMKeysSorted vm → (∀ x ∈ vm, x ∈ vm0) →
      (∀ n ∈ vm, n.iv ≤ desired →
        ∃ b ∈ ml, b.version = n.iv ∧ covers vm0 b.muts n) →
      (changeDurableVersionLoop vm ml desired).2.2 = desired ∧
        (changeDurableVersionLoop vm ml desired).2.1 =
          ml.filter (fun x => decide (desired < x.version)) ∧
        ∀ n ∈ (changeDurableVersionLoop vm ml desired).1, desired < n.iv := by
  induction N with
  | zero =>
      intro ml vm desired hlen _ _ _ hcov
      have hml : ml = [] := List.length_eq_zero.mp (Nat.le_zero.mp hlen)
      subst hml
      rw [changeDurableVersionLoop]
      refine ⟨rfl, rfl, ?_⟩
      intro n hn
      by_contra hle
      push_neg at hle
      obtain ⟨b, hb, _⟩ := hcov n hn hle
      exact absurd hb (List.not_mem_nil b)
  | succ N ih =>
      intro ml vm desired hlen hmls hvs hsub hcov
      cases ml with
      | nil =>
          rw [changeDurableVersionLoop]
          refine ⟨rfl, rfl, ?_⟩
          intro n hn
          by_contra hle
          push_neg at hle
          obtain ⟨b, hb, _⟩ := hcov n hn hle
          exact absurd hb (List.not_mem_nil b)
      | cons b rest =>
          rw [MLSorted, List.pairwise_cons] at hmls
          obtain ⟨hhead, hrest⟩ := hmls
          rw [changeDurableVersionLoop]
          by_cases hble : b.version ≤ desired
          · rw [if_pos hble]
            dsimp only
            have hvs2 : VMKeysSorted (processBatch b.version vm b.muts) :=
              List.Pairwise.sublist (processBatch_sublist b.version vm b.muts) hvs
            have hsub2 : ∀ x ∈ processBatch b.version vm b.muts, x ∈ vm0 :=
              fun x hx => hsub x ((processBatch_sublist b.version vm b.muts).subset hx)
            have hmls2 : MLSorted (rest.filter fun x => decide (b.version < x.version)) :=
              List.Pairwise.sublist (List.filter_sublist rest) hrest
            have hcov2 : ∀ n ∈ processBatch b.version vm b.muts, n.iv ≤ desired →
                ∃ b2 ∈ (rest.filter fun x => decide (b.version < x.version)),
                  b2.version = n.iv ∧ covers vm0 b2.muts n := by
              intro n hn hle
              have hnvm : n ∈ vm := (processBatch_sublist b.version vm b.muts).subset hn
              obtain ⟨b2, hb2, hver, hcv⟩ := hcov n hnvm hle
              rcases List.mem_cons.mp hb2 with rfl | hr
              · exact absurd hcv (processBatch_erases_covered b2.version vm0
                  b2.muts vm hvs hsub n hn hver.symm)
              · exact ⟨b2, List.mem_filter.mpr ⟨hr, decide_eq_true (hhead b2 hr)⟩,
                  hver, hcv⟩
            by_cases heq : b.version = desired
            · subst heq
              rw [if_pos rfl]
              refine ⟨rfl, ?_, ?_⟩
              · rw [List.filter_cons]
                have hfb : decide (b.version < b.version) = false :=
                  decide_eq_false (lt_irrefl b.version)
                rw [hfb]
                simp only [Bool.false_eq_true, if_false]
              · intro n hn
                by_contra hle
                push_neg at hle
                obtain ⟨b2, hb2, hver, _⟩ := hcov2 n hn hle
                have := (List.mem_filter.mp hb2).2
                rw [decide_eq_true_eq] at this
                omega
            · rw [if_neg heq]
              have hlen2 : (rest.filter fun x =>
                  decide (b.version < x.version)).length ≤ N := by
                have h1 := List.length_filter_le
                  (fun x => decide (b.version < x.version)) rest
                have h2 : rest.length ≤ N := by
                  simpa using Nat.succ_le_succ_iff.mp hlen
                omega
              obtain ⟨h1, h2, h3⟩ := ih
                (rest.filter fun x => decide (b.version < x.version))
                (processBatch b.version vm b.muts) desired hlen2 hmls2 hvs2
                hsub2 hcov2
              refine ⟨h1, ?_, h3⟩
              rw [h2, List.filter_cons]
              have hfb : decide (desired < b.version) = false :=
                decide_eq_false (by omega)
              rw [hfb]
              simp only [Bool.false_eq_true, if_false]
              rw [List.filter_filter]
              refine List.filter_congr fun x _ => ?_
              by_cases hx : desired < x.version
              · have hbx : b.version < x.version := by omega
                simp [hx, hbx]
              · simp [hx]
          · rw [if_neg hble]
            push_neg at hble
            refine ⟨rfl, ?_, ?_⟩
            · refine (List.filter_eq_self.mpr fun x hx => decide_eq_true ?_).symm
              rcases List.mem_cons.mp hx with he | hr
              · subst he
                exact hble
              · have := hhead x hr
                omega
            · intro n hn
              by_contra hle
              push_neg at hle
              obtain ⟨b2, hb2, hver, _⟩ := hcov n hn hle
              rcases List.mem_cons.mp hb2 with he | hr
              · subst he
                omega
              · have := hhead b2 hr
                omega

end StorageCore

/-- C2: after changeDurableVersion(desired) completes (repeating while
it returns false) on a sorted latest view and version-sorted mutation
log whose batches at or below desired cover every view entry inserted at
their version: durableVersion ends at desired, the mutation-log entries
at or below desired are erased, and every surviving latest-view entry
has insertVersion strictly above durableVersion. Moreover, per mutation
of a processed batch at version v: the latest-view entry at the
mutation's param1 is erased exactly when its insertVersion equals v,
for a SetValue the upper_bound entry is erased likewise (a set can
split a clear), and nothing with a different insertVersion is erased. -/
theorem C2_change_durable_version (vm : List VMNode) (ml : List MLBatch)
    (desired : Int) (hmls : MLSorted ml) (hvs : VMKeysSorted vm)
    (hcov : ∀ n ∈ vm, n.iv ≤ desired →
      ∃ b ∈ ml, b.version = n.iv ∧ covers vm b.muts n) :
    ((changeDurableVersionLoop vm ml desired).2.2 = desired ∧
      (changeDurableVersionLoop vm ml desired).2.1 =
        ml.filter (fun x => decide (desired < x.version)) ∧
      ∀ n ∈ (changeDurableVersionLoop vm ml desired).1, desired < n.iv) ∧
    (∀ (v : Int) (vm1 : List VMNode) (m : MLMutation) (n : VMNode),
        vmFind vm1 m.key = some n →
          (n.iv = v → vmFind (eraseStep v vm1 m) m.key = none) ∧
          (n.iv ≠ v → n ∈ eraseStep v vm1 m)) ∧
    (∀ (v : Int) (vm1 : List VMNode) (m : MLMutation) (u : VMNode),
        m.isSet = true → vmFind vm1 m.key = none →
        vmUpperBound vm1 m.key = some u → u.iv = v →
        u ∉ eraseStep v vm1 m) ∧
    (∀ (v : Int) (vm1 : List VMNode) (m : MLMutation) (n : VMNode),
        VMKeysSorted vm1 → n ∈ vm1 → n ∉ eraseStep v vm1 m → n.iv = v) := by
  refine ⟨changeDurableVersionLoop_spec vm ml.length ml vm desired (le_refl _)
    hmls hvs (fun x hx => hx) hcov, ?_, ?_, ?_⟩
  · intro v vm1 m n hf
    constructor
    · intro hiv
      have hstage : eraseAtKey v vm1 m = vmEraseKey vm1 m.key := by
        unfold eraseAtKey
        rw [hf]
        dsimp only
        rw [if_pos hiv]
      refine List.find?_eq_none.mpr ?_
      intro x hx
      have hx1 : x ∈ vmEraseKey vm1 m.key := by
        have hsubx := (eraseUpper_sublist v (eraseAtKey v vm1 m) m).subset hx
        rwa [hstage] at hsubx
      have hxe := ((mem_vmEraseKey vm1 m.key x).mp hx1).2
      simp [hxe]
    · intro hiv
      have hnm : n ∈ vm1 := List.mem_of_find?_eq_some hf
      have hkey : n.key = m.key := by
        have := List.find?_some hf
        simpa using this
      have hstage : eraseAtKey v vm1 m = vm1 := by
        unfold eraseAtKey
        rw [hf]
        dsimp only
        rw [if_neg hiv]
      show n ∈ eraseUpper v (eraseAtKey v vm1 m) m
      rw [hstage]
      unfold eraseUpper
      by_cases hset : m.isSet
      · rw [if_pos hset]
        cases hu : vmUpperBound vm1 m.key with
        | none => exact hnm
        | some u =>
            dsimp only
            have hugt : m.key < u.key := by
              have := List.find?_some hu
              simpa using this
            by_cases huiv : u.iv = v
            · rw [if_pos huiv]
              refine (mem_vmEraseKey vm1 u.key n).mpr ⟨hnm, ?_⟩
              omega
            · rw [if_neg huiv]
              exact hnm
      · rw [if_neg hset]
        exact hnm
  · intro v vm1 m u hset hnone hub hiv hmem
    have hstage : eraseAtKey v vm1 m = vm1 := by
      unfold eraseAtKey
      rw [hnone]
    have hstep : eraseStep v vm1 m = vmEraseKey vm1 u.key := by
      unfold eraseStep eraseUpper
      rw [hstage, if_pos hset, hub]
      dsimp only
      rw [if_pos hiv]
    rw [hstep] at hmem
    exact ((mem_vmEraseKey vm1 u.key u).mp hmem).2 rfl
  · intro v vm1 m n hs hn hmem
    by_contra hiv
    refine hmem ?_
    have hn1 : n ∈ eraseAtKey v vm1 m := by
      by_cases hnk : n.key = m.key
      · have hf : vmFind vm1 m.key = some n := by
          rw [← hnk]
          exact vmFind_eq_of_sorted vm1 n hs hn
        unfold eraseAtKey
        rw [hf]
        dsimp only
        rw [if_neg hiv]
        exact hn
      · exact mem_eraseAtKey_of_ne v vm1 m n hn hnk
    have hs1 : VMKeysSorted (eraseAtKey v vm1 m) :=
      List.Pairwise.sublist (eraseAtKey_sublist v vm1 m) hs
    show n ∈ eraseUpper v (eraseAtKey v vm1 m) m
    unfold eraseUpper
    by_cases hset : m.isSet
    · rw [if_pos hset]
      cases hu : vmUpperBound (eraseAtKey v vm1 m) m.key with
      | none => exact hn1
      | some u =>
          dsimp only
          by_cases huiv : u.iv = v
          · rw [if_pos huiv]
            have hum : u ∈ eraseAtKey v vm1 m := List.mem_of_find?_eq_some hu
            refine (mem_vmEraseKey _ u.key n).mpr ⟨hn1, ?_⟩
            intro hknu
            have : n = u := eq_of_mem_sorted_key _ hs1 n u hn1 hum hknu
            rw [this] at hiv
            exact hiv huiv
          · rw [if_neg huiv]
            exact hn1
    · rw [if_neg hset]
      exact hn1

/-- C2 witness: view entries at keys 1, 2, 5 with insertVersions 10,
10, 20 (key 2 being the split right half of the SetValue at key 1),
mutation log with a SetValue batch at version 10 and a clear batch at
version 20, promoted to durable version 20: everything is erased. -/
theorem C2_change_durable_version_witness :
    (changeDurableVersionLoop [⟨1, 10⟩, ⟨2, 10⟩, ⟨5, 20⟩]
        [⟨10, [⟨true, 1⟩]⟩, ⟨20, [⟨false, 5⟩]⟩] 20).2.2 = 20 ∧
      (changeDurableVersionLoop [⟨1, 10⟩, ⟨2, 10⟩, ⟨5, 20⟩]
          [⟨10, [⟨true, 1⟩]⟩, ⟨20, [⟨false, 5⟩]⟩] 20).2.1 =
        ([⟨10, [⟨true, 1⟩]⟩, ⟨20, [⟨false, 5⟩]⟩] : List MLBatch).filter
          (fun x => decide ((20 : Int) < x.version)) ∧
      ∀ n ∈ (changeDurableVersionLoop [⟨1, 10⟩, ⟨2, 10⟩, ⟨5, 20⟩]
          [⟨10, [⟨true, 1⟩]⟩, ⟨20, [⟨false, 5⟩]⟩] 20).1, (20 : Int) < n.iv :=
  (C2_change_durable_version [⟨1, 10⟩, ⟨2, 10⟩, ⟨5, 20⟩]
      [⟨10, [⟨true, 1⟩]⟩, ⟨20, [⟨false, 5⟩]⟩] 20
      (by unfold MLSorted; decide) (by unfold VMKeysSorted; decide)
      (by decide)).1

